import Mathlib

/-!
Verification of scrollrun (src/main.rs) against its natural-language
specification.  The Rust source is shallowly embedded: pure helper
functions become Lean functions on `Nat`/`Int`/`List`, the line reader
and the render loop become explicit state-passing functions driven by a
schedule of channel observations.
-/

namespace Scrollrun

/- ## Elapsed-time formatting (`impl fmt::Display for Format`, src/main.rs 179-195) -/

/-- Embeds Rust's `{:02}` padding: pad a number to at least two digits with a
leading zero. -/
def pad2 (n : Nat) : String :=
  if n < 10 then "0" ++ toString n else toString n

/-- Embeds `impl fmt::Display for Format` (src/main.rs 179-195): starting from
the whole-second count `t`, take `t % 60` as seconds, divide by 60, take
`t % 60` as minutes, divide by 60, take `t % 24` as hours, divide by 24 to get
days; prefix `{days}d ` exactly when the remaining day count is positive.
The successive destructive divisions of the source are written inline. -/
def formatDuration (secs : Nat) : String :=
  if secs / 60 / 60 / 24 > 0 then
    toString (secs / 60 / 60 / 24) ++ "d " ++ pad2 (secs / 60 / 60 % 24) ++ ":"
      ++ pad2 (secs / 60 % 60) ++ ":" ++ pad2 (secs % 60)
  else
    pad2 (secs / 60 / 60 % 24) ++ ":" ++ pad2 (secs / 60 % 60) ++ ":"
      ++ pad2 (secs % 60)

/-- Modelled from the spec's words, for comparison with `formatDuration`:
hours, minutes and seconds computed directly by division/modulo on the total
whole seconds, with the `{days}d ` prefix exactly when at least 24 hours
(86400 seconds) have elapsed. -/
def specFormatDuration (secs : Nat) : String :=
  if 86400 ≤ secs then
    toString (secs / 86400) ++ "d " ++ pad2 (secs / 3600 % 24) ++ ":"
      ++ pad2 (secs / 60 % 60) ++ ":" ++ pad2 (secs % 60)
  else
    pad2 (secs / 3600 % 24) ++ ":" ++ pad2 (secs / 60 % 60) ++ ":"
      ++ pad2 (secs % 60)

theorem formatDuration_eq_spec (n : Nat) :
    formatDuration n = specFormatDuration n := by
  unfold formatDuration specFormatDuration
  have h2 : n / 60 / 60 / 24 = n / 86400 := by omega
  have h1 : n / 60 / 60 = n / 3600 := by omega
  rw [h2, h1]
  by_cases h : 86400 ≤ n
  · rw [if_pos (by omega), if_pos h]
  · rw [if_neg (by omega), if_neg h]

/-- C8: the elapsed-time formatter produces `HH:MM:SS` from the total whole
seconds via successive division/modulo by 60, 60 and 24, prefixing `{days}d `
exactly when at least 24 hours have elapsed; in particular 45s → "00:00:45",
125s → "00:02:05", 3665s → "01:01:05", 90065s → "1d 01:01:05" and
86400s → "1d 00:00:00". -/
theorem claim_C8_duration_format :
    (∀ n, formatDuration n = specFormatDuration n) ∧
    formatDuration 45 = "00:00:45" ∧
    formatDuration 125 = "00:02:05" ∧
    formatDuration 3665 = "01:01:05" ∧
    formatDuration 90065 = "1d 01:01:05" ∧
    formatDuration 86400 = "1d 00:00:00" :=
  ⟨formatDuration_eq_spec, rfl, rfl, rfl, rfl, rfl⟩

/- ## Display-capacity heuristic (`num_lines_heuristic`, src/main.rs 58-64) -/

/-- Embeds `num_lines_heuristic` (src/main.rs 58-64).  The `u16` argument is
modeled on `Nat`; Rust's `saturating_sub` is `Nat` subtraction, and `u16`
division and `max` cannot overflow. -/
def num_lines_heuristic (rows : Nat) : Nat :=
  if rows < 11 then
    max (rows - 4) 1
  else
    rows - max (rows / 3) 5

/-- C9: the display-capacity heuristic is weakly increasing in the terminal
row count, and its result is at least 1 for every row count. -/
theorem claim_C9_heuristic_monotone :
    (∀ r1 r2, r1 < r2 → num_lines_heuristic r1 ≤ num_lines_heuristic r2) ∧
    (∀ r, 1 ≤ num_lines_heuristic r) := by
  constructor
  · intro r1 r2 h
    unfold num_lines_heuristic
    simp only [Nat.max_def]
    split_ifs <;> omega
  · intro r
    unfold num_lines_heuristic
    simp only [Nat.max_def]
    split_ifs <;> omega

/-- Witness for C9 at concrete row counts. -/
theorem claim_C9_witness :
    num_lines_heuristic 5 ≤ num_lines_heuristic 20 :=
  claim_C9_heuristic_monotone.1 5 20 (by decide)

/- ## Exit-status translation (`main`, src/main.rs 94-105) -/

/-- A child exit status as observed by `main`: `status.code()` (absent when
the child was killed by a signal) and `status.success()`. -/
structure ChildStatus where
  code : Option Int
  success : Bool

/-- Embeds the exit-status translation in `main` (src/main.rs 97-105):
`status.code().and_then(u8::try_from).map(ExitCode::from)` with a fallback to
`ExitCode::SUCCESS`/`ExitCode::FAILURE` on `status.success()`.  `u8::try_from`
succeeds exactly when the `i32` code lies in `0..=255`. -/
def translateStatus (st : ChildStatus) : Nat :=
  match st.code.bind (fun i => if 0 ≤ i ∧ i ≤ 255 then some i.toNat else none) with
  | some n => n
  | none => if st.success then 0 else 1

/-- C7: an OS exit code representable as an unsigned 8-bit value is passed
through verbatim (a child exiting with status 3 yields program exit code 3);
a missing or out-of-range code maps to 0 when the status reports success and
to 1 otherwise. -/
theorem claim_C7_exit_translation :
    (∀ (st : ChildStatus) (i : Int), st.code = some i → 0 ≤ i → i ≤ 255 →
      (translateStatus st : Int) = i) ∧
    (∀ (st : ChildStatus) (i : Int), st.code = some i → (i < 0 ∨ 255 < i) →
      translateStatus st = if st.success then 0 else 1) ∧
    (∀ st : ChildStatus, st.code = none →
      translateStatus st = if st.success then 0 else 1) ∧
    translateStatus ⟨some 3, false⟩ = 3 := by
  refine ⟨?_, ?_, ?_, rfl⟩
  · intro st i hc h0 h255
    simp only [translateStatus, hc, Option.some_bind, if_pos (And.intro h0 h255)]
    exact Int.toNat_of_nonneg h0
  · intro st i hc hout
    have hiff : ¬(0 ≤ i ∧ i ≤ 255) := by omega
    simp only [translateStatus, hc, Option.some_bind, if_neg hiff]
  · intro st hc
    simp only [translateStatus, hc, Option.none_bind]

/-- Witness for C7 at a concrete in-range status. -/
theorem claim_C7_witness : (translateStatus ⟨some 7, false⟩ : Int) = 7 :=
  claim_C7_exit_translation.1 ⟨some 7, false⟩ 7 rfl (by decide) (by decide)

/- ## Top-level control flow of `main` (src/main.rs 71-117) -/

/-- The three possible data-source modes of `main`. -/
inductive MainMode
  | command
  | pipe
  | idle
deriving DecidableEq

/-- Embeds the control flow of `main` (src/main.rs 71-117): when a command is
present, the command branch either spawns the child (and returns its
translated status from inside the branch) or propagates the spawn error with
`?`; only when no command was given does control reach the
`stdin().is_terminal()` check that selects pipe mode or doing nothing. -/
def mainFlow (command : Option String) (spawnOk : Bool)
    (stdinIsTerminal : Bool) : Except Unit MainMode :=
  match command with
  | some _ => if spawnOk then Except.ok MainMode.command else Except.error ()
  | none =>
    if !stdinIsTerminal then Except.ok MainMode.pipe else Except.ok MainMode.idle

/-- C10: with a command argument supplied the program never enters pipe mode
(never reads its own standard input), regardless of whether standard input is
a terminal and of whether the spawn succeeds; pipe mode is reached exactly
when no command is given and standard input is not a terminal. -/
theorem claim_C10_no_pipe_with_command :
    (∀ (c : String) (spawnOk stdinIsTerminal : Bool),
      mainFlow (some c) spawnOk stdinIsTerminal ≠ Except.ok MainMode.pipe) ∧
    (∀ (cmd : Option String) (spawnOk stdinIsTerminal : Bool),
      mainFlow cmd spawnOk stdinIsTerminal = Except.ok MainMode.pipe ↔
        cmd = none ∧ stdinIsTerminal = false) := by
  constructor
  · intro c spawnOk stdinIsTerminal
    cases spawnOk <;> simp [mainFlow]
  · intro cmd spawnOk stdinIsTerminal
    cases cmd with
    | none => cases stdinIsTerminal <;> simp [mainFlow]
    | some c => cases spawnOk <;> simp [mainFlow]

/-- Witness for C10: a concrete command invocation with non-terminal stdin is
not in pipe mode. -/
theorem claim_C10_witness :
    mainFlow (some "true") true false ≠ Except.ok MainMode.pipe :=
  claim_C10_no_pipe_with_command.1 "true" true false

/- ## Line reader (`read`, src/main.rs 122-133) -/

/-- Prepends a character to the first line of a nonempty partition, creating a
fresh one-character line when the partition is empty.  Helper describing how a
non-terminator character extends the current line in `linesOfChars`. -/
def consHead (c : Char) : List (List Char) → List (List Char)
  | [] => [[c]]
  | l :: ls => (c :: l) :: ls

/-- Embeds the `BufRead::lines` iteration used by `read` (src/main.rs
126-127) on an error-free character stream: each item is the stream up to and
including the next `\n` (or up to EOF), with one trailing `\n` stripped and,
only when a `\n` was stripped, one trailing `\r` stripped after it; a final
empty segment after a trailing `\n` yields no item. -/
def linesOfChars : List Char → List (List Char)
  | [] => []
  | '\n' :: rest => [] :: linesOfChars rest
  | '\r' :: '\n' :: rest => [] :: linesOfChars rest
  | c :: rest => consHead c (linesOfChars rest)

/-- Embeds the body of `read` (src/main.rs 122-133): iterate over the line
results produced by `BufReader::lines`; an `Ok` line is sent to the channel,
the first `Err` breaks the loop and the function returns.  The result is the
list of lines sent, in order. -/
def read : List (Except Unit (List Char)) → List (List Char)
  | [] => []
  | Except.ok l :: rest => l :: read rest
  | Except.error _ :: _ => []

/-- `read` run on an error-free character stream: `BufReader::lines` yields
only `Ok` items, one per line of the stream. -/
def readModel (s : List Char) : List (List Char) :=
  read ((linesOfChars s).map Except.ok)

/-- A line terminator of the spec's split: `\n` or `\r\n`. -/
inductive LineTerm
  | lf
  | crlf
deriving DecidableEq

/-- The characters of a terminator. -/
def LineTerm.encode : LineTerm → List Char
  | lf => ['\n']
  | crlf => ['\r', '\n']

/-- Modelled from the spec: a byte stream presented as its split into lines,
each followed by its terminator, optionally ending with a final unterminated
line. -/
def encodeStream (body : List (List Char × LineTerm))
    (tail : Option (List Char)) : List Char :=
  (body.map (fun p => p.1 ++ p.2.encode)).flatten ++ tail.getD []

theorem linesOfChars_other (c : Char) (rest : List Char) (h1 : c ≠ '\n')
    (h2 : c ≠ '\r') :
    linesOfChars (c :: rest) = consHead c (linesOfChars rest) :=
  linesOfChars.eq_4 c rest (fun h => h1 h) (fun _ h _ => h2 h)

theorem linesOfChars_cr (rest : List Char) (h : rest.head? ≠ some '\n') :
    linesOfChars ('\r' :: rest) = consHead '\r' (linesOfChars rest) :=
  linesOfChars.eq_4 '\r' rest (fun hc => absurd hc (by decide))
    (fun _ _ hr => h (by rw [hr]; rfl))

/-- A nonempty line with no newline character is read back as itself. -/
theorem linesOfChars_single (l : List Char) (hne : l ≠ [])
    (hn : '\n' ∉ l) : linesOfChars l = [l] := by
  induction l with
  | nil => exact absurd rfl hne
  | cons c rest ih =>
    have hc : c ≠ '\n' := fun h => hn (by simp [h])
    have hrest : '\n' ∉ rest := fun h => hn (by simp [h])
    cases rest with
    | nil =>
      by_cases hcr : c = '\r'
      · subst hcr
        rw [linesOfChars_cr [] (by simp)]
        rfl
      · rw [linesOfChars_other c [] hc hcr]
        rfl
    | cons c2 rest2 =>
      have hc2 : c2 ≠ '\n' := fun h => hrest (by simp [h])
      have hrec : linesOfChars (c2 :: rest2) = [c2 :: rest2] :=
        ih (by simp) hrest
      by_cases hcr : c = '\r'
      · subst hcr
        rw [linesOfChars_cr (c2 :: rest2) (by simp [hc2]), hrec]
        rfl
      · rw [linesOfChars_other c (c2 :: rest2) hc hcr, hrec]
        rfl

/-- Reading a stream that starts with an `\n`-terminated line whose content
does not end in `\r` yields that line first. -/
theorem linesOfChars_line_lf (l s : List Char) (hn : '\n' ∉ l)
    (hcr : l.getLast? ≠ some '\r') :
    linesOfChars (l ++ '\n' :: s) = l :: linesOfChars s := by
  induction l with
  | nil => rfl
  | cons c rest ih =>
    have hc : c ≠ '\n' := fun h => hn (by simp [h])
    have hrest : '\n' ∉ rest := fun h => hn (by simp [h])
    cases rest with
    | nil =>
      have hcr2 : c ≠ '\r' := by
        intro h
        exact hcr (by simp [h])
      rw [List.cons_append, List.nil_append,
        linesOfChars_other c ('\n' :: s) hc hcr2]
      rfl
    | cons c2 rest2 =>
      have hc2 : c2 ≠ '\n' := fun h => hrest (by simp [h])
      have htail : (c2 :: rest2).getLast? ≠ some '\r' := by
        intro h
        apply hcr
        rw [List.getLast?_cons_cons]
        exact h
      have hrec := ih hrest htail
      rw [List.cons_append]
      by_cases hcrc : c = '\r'
      · subst hcrc
        have hhead : ((c2 :: rest2) ++ '\n' :: s).head? ≠ some '\n' := by
          simp [hc2]
        rw [linesOfChars_cr _ hhead, hrec]
        rfl
      · rw [linesOfChars_other c _ hc hcrc, hrec]
        rfl

/-- Reading a stream that starts with an `\r\n`-terminated line yields that
line first. -/
theorem linesOfChars_line_crlf (l s : List Char) (hn : '\n' ∉ l) :
    linesOfChars (l ++ '\r' :: '\n' :: s) = l :: linesOfChars s := by
  induction l with
  | nil => rfl
  | cons c rest ih =>
    have hc : c ≠ '\n' := fun h => hn (by simp [h])
    have hrest : '\n' ∉ rest := fun h => hn (by simp [h])
    have hrec := ih hrest
    rw [List.cons_append]
    by_cases hcrc : c = '\r'
    · subst hcrc
      have hhead : (rest ++ '\r' :: '\n' :: s).head? ≠ some '\n' := by
        cases rest with
        | nil => simp
        | cons c2 rest2 =>
          have hc2 : c2 ≠ '\n' := fun h => hrest (by simp [h])
          simp [hc2]
      rw [linesOfChars_cr _ hhead, hrec]
      rfl
    · rw [linesOfChars_other c _ hc hcrc, hrec]
      rfl

theorem read_map_ok (ls : List (List Char)) :
    read (ls.map Except.ok) = ls := by
  induction ls with
  | nil => rfl
  | cons l rest ih =>
    rw [List.map_cons]
    show l :: read (rest.map Except.ok) = l :: rest
    rw [ih]

theorem encodeStream_nil_some (l : List Char) :
    encodeStream [] (some l) = l := by
  simp [encodeStream]

theorem encodeStream_cons (p : List Char × LineTerm)
    (rest : List (List Char × LineTerm)) (tail : Option (List Char)) :
    encodeStream (p :: rest) tail
      = p.1 ++ (p.2.encode ++ encodeStream rest tail) := by
  simp [encodeStream, List.append_assoc]

theorem linesOfChars_encode :
    ∀ (body : List (List Char × LineTerm)) (tail : Option (List Char)),
      (∀ p ∈ body,
        '\n' ∉ p.1 ∧ (p.2 = LineTerm.lf → p.1.getLast? ≠ some '\r')) →
      (∀ l, tail = some l → l ≠ [] ∧ '\n' ∉ l) →
      linesOfChars (encodeStream body tail)
        = body.map Prod.fst ++ tail.toList := by
  intro body
  induction body with
  | nil =>
    intro tail _ htail
    cases tail with
    | none => rfl
    | some l =>
      obtain ⟨hne, hn⟩ := htail l rfl
      rw [encodeStream_nil_some, linesOfChars_single l hne hn]
      rfl
  | cons p rest ih =>
    intro tail hbody htail
    obtain ⟨hn, hlf⟩ := hbody p (by simp)
    have hrest : ∀ q ∈ rest,
        '\n' ∉ q.1 ∧ (q.2 = LineTerm.lf → q.1.getLast? ≠ some '\r') :=
      fun q hq => hbody q (by simp [hq])
    have ihr := ih tail hrest htail
    rw [encodeStream_cons]
    cases hterm : p.2 with
    | lf =>
      have henc : LineTerm.encode LineTerm.lf ++ encodeStream rest tail
          = '\n' :: encodeStream rest tail := rfl
      rw [henc, linesOfChars_line_lf p.1 _ hn (hlf hterm), ihr]
      rfl
    | crlf =>
      have henc : LineTerm.encode LineTerm.crlf ++ encodeStream rest tail
          = '\r' :: '\n' :: encodeStream rest tail := rfl
      rw [henc, linesOfChars_line_crlf p.1 _ hn, ihr]
      rfl

/-- C1: on any byte stream presented as lines with `\n` or `\r\n` terminators
(possibly ending in a final unterminated nonempty line), `read` sends to its
channel exactly those lines in order with terminators stripped, and sends
nothing for an empty stream. -/
theorem claim_C1_reader_lines :
    (∀ (body : List (List Char × LineTerm)) (tail : Option (List Char)),
      (∀ p ∈ body,
        '\n' ∉ p.1 ∧ (p.2 = LineTerm.lf → p.1.getLast? ≠ some '\r')) →
      (∀ l, tail = some l → l ≠ [] ∧ '\n' ∉ l) →
      readModel (encodeStream body tail) = body.map Prod.fst ++ tail.toList) ∧
    readModel [] = [] := by
  constructor
  · intro body tail hbody htail
    unfold readModel
    rw [read_map_ok]
    exact linesOfChars_encode body tail hbody htail
  · rfl

/-- Witness for C1 on the concrete stream "ab\r\nc\nd". -/
theorem claim_C1_witness :
    readModel (encodeStream [(['a', 'b'], LineTerm.crlf), (['c'], LineTerm.lf)]
      (some ['d'])) = [['a', 'b'], ['c'], ['d']] :=
  claim_C1_reader_lines.1 [(['a', 'b'], LineTerm.crlf), (['c'], LineTerm.lf)]
    (some ['d']) (by decide)
    (by intro l hl; cases hl; exact ⟨by decide, by decide⟩)

/-- C6: when the line results contain a mid-stream error, `read` forwards
exactly the lines that preceded the error, in order, and then returns without
forwarding anything that follows the error. -/
theorem claim_C6_error_stops_silently :
    ∀ (pre : List (List Char)) (e : Unit)
      (post : List (Except Unit (List Char))),
      read (pre.map Except.ok ++ Except.error e :: post) = pre := by
  intro pre e post
  induction pre with
  | nil => rfl
  | cons l rest ih =>
    rw [List.map_cons, List.cons_append]
    show l :: read (rest.map Except.ok ++ Except.error e :: post) = l :: rest
    rw [ih]

/- ## Render loop (`print`, src/main.rs 135-174) -/

/-- Result of one `rx.recv_timeout(DELAY)` call in `print`. -/
inductive Recv
  | ok (line : String)
  | timeout
  | disconnected
deriving DecidableEq

/-- The channel interaction of one iteration of print's loop: `drained` is
the batch of lines taken by the non-blocking `while let Ok(line) =
rx.try_recv()` drain, `recv` the subsequent `recv_timeout` observation. -/
structure Tick where
  drained : List String
  recv : Recv
deriving DecidableEq

/-- The mutable state of print's loop: `output_lines` (a `VecDeque`) and the
`has_ended` flag. -/
structure LoopState where
  buffer : List String
  has_ended : Bool
deriving DecidableEq

/-- Embeds `while output_lines.len() > num_lines { output_lines.pop_front() }`
(src/main.rs 157-160): as long as the length exceeds the capacity, pop the
front element and re-test. -/
def evict (C : Nat) : List String → List String
  | [] => []
  | l :: t => if C < t.length + 1 then evict C t else l :: t

/-- Embeds one iteration of print's loop body (src/main.rs 144-171), in
source order: (1) drain `t.drained` to the back of the buffer; (2) draw the
frame, whose body is `output_lines.iter().take(num_lines)` — the first
`num_lines` elements of the buffer as it is at this point; (3) evict from the
front while the length exceeds the capacity, the loop body also setting
`has_ended = false` whenever it runs at least once; (4) match on
`recv_timeout`: `Disconnected` breaks if `has_ended` was set, else sets it;
`Timeout` continues; `Ok(line)` pushes the line to the back.  The capacity is
the per-tick `opt.num_lines()` value, constant when `--num-lines` is given. -/
def tickStep (C : Nat) (s : LoopState) (t : Tick) :
    LoopState × List String × Bool :=
  let buf := s.buffer ++ t.drained
  let frame := buf.take C
  let ended := if C < buf.length then false else s.has_ended
  let buf2 := evict C buf
  match t.recv with
  | Recv.disconnected =>
    if ended then (⟨buf2, ended⟩, frame, true)
    else (⟨buf2, true⟩, frame, false)
  | Recv.timeout => (⟨buf2, ended⟩, frame, false)
  | Recv.ok line => (⟨buf2 ++ [line], ended⟩, frame, false)

/-- The state after a tick. -/
def stateAfter (C : Nat) (s : LoopState) (t : Tick) : LoopState :=
  (tickStep C s t).1

/-- The frame drawn during a tick. -/
def frameAt (C : Nat) (s : LoopState) (t : Tick) : List String :=
  (tickStep C s t).2.1

/-- Whether the tick breaks out of the loop. -/
def exitsAt (C : Nat) (s : LoopState) (t : Tick) : Bool :=
  (tickStep C s t).2.2

/-- What `print` writes, abstracted: a frame per tick, the footer line once. -/
inductive OutEvent
  | frame (lines : List String)
  | footer
deriving DecidableEq

/-- Runs print's loop over a schedule of ticks, recording the drawn frames;
`some` output is produced exactly when a tick breaks the loop within the
schedule, and then the footer (src/main.rs 173) is written exactly once,
after the loop exits. -/
def printRun (C : Nat) : LoopState → List Tick → Option (List OutEvent)
  | _, [] => none
  | s, t :: rest =>
    if exitsAt C s t then
      some [OutEvent.frame (frameAt C s t), OutEvent.footer]
    else
      (printRun C (stateAfter C s t) rest).map
        (fun out => OutEvent.frame (frameAt C s t) :: out)

/-- State evolution of the loop over a schedule (used with schedules of
non-breaking ticks). -/
def runState (C : Nat) (s : LoopState) (ts : List Tick) : LoopState :=
  ts.foldl (fun s t => stateAfter C s t) s

/-- A schedule in which each tick drains one batch and then times out. -/
def batchTicks (batches : List (List String)) : List Tick :=
  batches.map (fun b => ⟨b, Recv.timeout⟩)

/-- A tick observing a closed and fully drained channel: nothing left to
drain, `recv_timeout` returns `Disconnected`. -/
abbrev closedTick : Tick := ⟨[], Recv.disconnected⟩

/-- A tick on an idle open channel: nothing to drain, `recv_timeout` times
out. -/
abbrev idleTick : Tick := ⟨[], Recv.timeout⟩

theorem tickStep_timeout_eq (C : Nat) (b : List String) (e : Bool)
    (d : List String) :
    tickStep C ⟨b, e⟩ ⟨d, Recv.timeout⟩
      = (⟨evict C (b ++ d), if C < (b ++ d).length then false else e⟩,
         (b ++ d).take C, false) := rfl

theorem tickStep_ok_eq (C : Nat) (b : List String) (e : Bool)
    (d : List String) (line : String) :
    tickStep C ⟨b, e⟩ ⟨d, Recv.ok line⟩
      = (⟨evict C (b ++ d) ++ [line],
          if C < (b ++ d).length then false else e⟩,
         (b ++ d).take C, false) := rfl

theorem tickStep_disconnected_eq (C : Nat) (b : List String) (e : Bool)
    (d : List String) :
    tickStep C ⟨b, e⟩ ⟨d, Recv.disconnected⟩
      = (if (if C < (b ++ d).length then false else e)
         then (⟨evict C (b ++ d), if C < (b ++ d).length then false else e⟩,
               (b ++ d).take C, true)
         else (⟨evict C (b ++ d), true⟩, (b ++ d).take C, false)) := rfl

theorem evict_eq_drop (C : Nat) (w : List String) :
    evict C w = w.drop (w.length - C) := by
  induction w with
  | nil => simp [evict]
  | cons l t ih =>
    show (if C < t.length + 1 then evict C t else l :: t) = _
    by_cases h : C < t.length + 1
    · rw [if_pos h, ih]
      have hlen : (l :: t).length - C = (t.length - C) + 1 := by
        rw [List.length_cons]
        omega
      rw [hlen, List.drop_succ_cons]
    · rw [if_neg h]
      have hlen : (l :: t).length - C = 0 := by
        rw [List.length_cons]
        omega
      rw [hlen, List.drop_zero]

theorem evict_length (C : Nat) (w : List String) :
    (evict C w).length = min w.length C := by
  rw [evict_eq_drop, List.length_drop]
  omega

theorem evict_of_le (C : Nat) (w : List String) (h : w.length ≤ C) :
    evict C w = w := by
  rw [evict_eq_drop]
  have h0 : w.length - C = 0 := by omega
  rw [h0, List.drop_zero]

theorem drop_sub_append (C : Nat) (a b : List String) (h : C ≤ b.length) :
    (a ++ b).drop ((a ++ b).length - C) = b.drop (b.length - C) := by
  have hlen : (a ++ b).length - C = a.length + (b.length - C) := by
    rw [List.length_append]
    omega
  rw [hlen, List.drop_append]

/-- Evicting, appending more lines and evicting again gives the same window
as evicting once at the end. -/
theorem evict_absorb (C : Nat) (a b : List String) :
    evict C (evict C a ++ b) = evict C (a ++ b) := by
  by_cases h : a.length ≤ C
  · rw [evict_of_le C a h]
  · rw [evict_eq_drop C a]
    have hsplit : a ++ b
        = a.take (a.length - C) ++ (a.drop (a.length - C) ++ b) := by
      rw [← List.append_assoc, List.take_append_drop]
    rw [hsplit, evict_eq_drop, evict_eq_drop]
    exact (drop_sub_append C _ _
      (by rw [List.length_append, List.length_drop]; omega)).symm

theorem runState_buffer (C : Nat) :
    ∀ (batches : List (List String)) (L : List String) (e : Bool),
      (runState C ⟨evict C L, e⟩ (batchTicks batches)).buffer
        = evict C (L ++ batches.flatten) := by
  intro batches
  induction batches with
  | nil =>
    intro L e
    show (⟨evict C L, e⟩ : LoopState).buffer = evict C (L ++ List.flatten [])
    rw [List.flatten_nil, List.append_nil]
  | cons bb bs ih =>
    intro L e
    show (runState C (stateAfter C ⟨evict C L, e⟩ ⟨bb, Recv.timeout⟩)
        (batchTicks bs)).buffer = evict C (L ++ (bb :: bs).flatten)
    unfold stateAfter
    rw [tickStep_timeout_eq]
    show (runState C ⟨evict C (evict C L ++ bb),
        if C < (evict C L ++ bb).length then false else e⟩
        (batchTicks bs)).buffer = evict C (L ++ (bb :: bs).flatten)
    rw [evict_absorb, ih]
    rw [List.flatten_cons, ← List.append_assoc]

/-- C2: driving the loop from an empty window with any partition of N lines
into per-tick drain batches, the window after the last tick's trim holds
exactly the last `min N C` of those lines, in arrival order: the front
(oldest) lines are the ones evicted, and the length never exceeds C. -/
theorem claim_C2_window_fifo :
    ∀ (C : Nat) (batches : List (List String)),
      (runState C ⟨[], false⟩ (batchTicks batches)).buffer
          = batches.flatten.drop (batches.flatten.length - C) ∧
      (runState C ⟨[], false⟩ (batchTicks batches)).buffer.length
          = min batches.flatten.length C := by
  intro C batches
  have h : (runState C ⟨[], false⟩ (batchTicks batches)).buffer
      = evict C ([] ++ batches.flatten) := runState_buffer C batches [] false
  rw [List.nil_append] at h
  constructor
  · rw [h, evict_eq_drop]
  · rw [h, evict_length]

/-- C3: once the channel is closed and drained (every further observation is
`Disconnected` with nothing to drain), the loop exits within two ticks —
after the second consecutive closed-and-empty observation, or the first when
`has_ended` was already set by a previous one — and the footer is written
exactly once, after the frames. -/
theorem claim_C3_termination :
    ∀ (C : Nat) (b : List String) (e : Bool) (rest : List Tick),
      ∃ frames : List (List String),
        printRun C ⟨b, e⟩ (closedTick :: closedTick :: rest)
            = some (frames.map OutEvent.frame ++ [OutEvent.footer]) ∧
        frames.length = (if e = true ∧ b.length ≤ C then 1 else 2) := by
  intro C b e rest
  by_cases h : e = true ∧ b.length ≤ C
  · obtain ⟨he, hl⟩ := h
    subst he
    have hstep : tickStep C ⟨b, true⟩ closedTick
        = (⟨b, true⟩, b.take C, true) := by
      have heq := tickStep_disconnected_eq C b true []
      rw [List.append_nil] at heq
      rw [heq, if_neg (show ¬ C < b.length by omega), if_pos rfl,
        evict_of_le C b hl]
    refine ⟨[b.take C], ?_, by rw [if_pos ⟨rfl, hl⟩]; rfl⟩
    show (if exitsAt C ⟨b, true⟩ closedTick then
        some [OutEvent.frame (frameAt C ⟨b, true⟩ closedTick), OutEvent.footer]
      else (printRun C (stateAfter C ⟨b, true⟩ closedTick)
          (closedTick :: rest)).map
        (fun out => OutEvent.frame (frameAt C ⟨b, true⟩ closedTick) :: out))
      = some ([b.take C].map OutEvent.frame ++ [OutEvent.footer])
    unfold exitsAt frameAt stateAfter
    rw [hstep]
    rfl
  · have hend1 : (if C < b.length then false else e) = false := by
      by_cases hlen : C < b.length
      · rw [if_pos hlen]
      · rw [if_neg hlen]
        cases e with
        | false => rfl
        | true => exact absurd ⟨rfl, by omega⟩ h
    have hstep1 : tickStep C ⟨b, e⟩ closedTick
        = (⟨evict C b, true⟩, b.take C, false) := by
      have heq := tickStep_disconnected_eq C b e []
      rw [List.append_nil] at heq
      rw [heq, hend1, if_neg (show ¬ false = true by decide)]
    have hlen2 : (evict C b).length ≤ C := by
      rw [evict_length]
      omega
    have hstep2 : tickStep C ⟨evict C b, true⟩ closedTick
        = (⟨evict C b, true⟩, (evict C b).take C, true) := by
      have heq := tickStep_disconnected_eq C (evict C b) true []
      rw [List.append_nil] at heq
      rw [heq, if_neg (show ¬ C < (evict C b).length by omega), if_pos rfl,
        evict_of_le C _ hlen2]
    refine ⟨[b.take C, (evict C b).take C], ?_, by rw [if_neg h]; rfl⟩
    show (if exitsAt C ⟨b, e⟩ closedTick then
        some [OutEvent.frame (frameAt C ⟨b, e⟩ closedTick), OutEvent.footer]
      else (printRun C (stateAfter C ⟨b, e⟩ closedTick)
          (closedTick :: rest)).map
        (fun out => OutEvent.frame (frameAt C ⟨b, e⟩ closedTick) :: out))
      = some ([b.take C, (evict C b).take C].map OutEvent.frame
          ++ [OutEvent.footer])
    unfold exitsAt frameAt stateAfter
    rw [hstep1]
    show (printRun C ⟨evict C b, true⟩ (closedTick :: rest)).map
        (fun out => OutEvent.frame (b.take C) :: out)
      = some ([b.take C, (evict C b).take C].map OutEvent.frame
          ++ [OutEvent.footer])
    show (if exitsAt C ⟨evict C b, true⟩ closedTick then
        some [OutEvent.frame (frameAt C ⟨evict C b, true⟩ closedTick),
          OutEvent.footer]
      else (printRun C (stateAfter C ⟨evict C b, true⟩ closedTick) rest).map
        (fun out => OutEvent.frame (frameAt C ⟨evict C b, true⟩ closedTick)
          :: out)).map (fun out => OutEvent.frame (b.take C) :: out)
      = some ([b.take C, (evict C b).take C].map OutEvent.frame
          ++ [OutEvent.footer])
    unfold exitsAt frameAt stateAfter
    rw [hstep2]
    rfl

/-- C4 counterexample: with capacity 1 and the two lines "a", "b" drained in
one tick, the frame drawn in that tick is ["a"] — the oldest line of the
buffer — and not the most recent line ["b"] the claim requires. -/
theorem claim_C4_counterexample :
    frameAt 1 ⟨[], false⟩ ⟨["a", "b"], Recv.timeout⟩ = ["a"] ∧
    frameAt 1 ⟨[], false⟩ ⟨["a", "b"], Recv.timeout⟩
      ≠ ["a", "b"].drop (["a", "b"].length - 1) := by
  constructor
  · rfl
  · decide

/-- C4 amended: on every tick the drain happens before the redraw but the
eviction happens after it: the frame drawn shows the first (oldest)
up-to-capacity lines of the drained buffer, and only after the draw is the
buffer trimmed to the newest `capacity` lines (before the `recv_timeout`
line, if any, is appended). -/
theorem claim_C4_draw_before_evict :
    ∀ (C : Nat) (b : List String) (e : Bool) (t : Tick),
      frameAt C ⟨b, e⟩ t = (b ++ t.drained).take C ∧
      (stateAfter C ⟨b, e⟩ t).buffer
        = (b ++ t.drained).drop ((b ++ t.drained).length - C)
            ++ (match t.recv with | Recv.ok line => [line] | _ => []) := by
  intro C b e t
  obtain ⟨d, r⟩ := t
  unfold frameAt stateAfter
  cases r with
  | ok line =>
    rw [tickStep_ok_eq]
    exact ⟨rfl, by rw [evict_eq_drop]⟩
  | timeout =>
    rw [tickStep_timeout_eq]
    exact ⟨rfl, by rw [evict_eq_drop]; exact (List.append_nil _).symm⟩
  | disconnected =>
    rw [tickStep_disconnected_eq]
    by_cases hcond : (if C < (b ++ d).length then false else e) = true
    · rw [if_pos hcond]
      exact ⟨rfl, by rw [evict_eq_drop]; exact (List.append_nil _).symm⟩
    · rw [if_neg hcond]
      exact ⟨rfl, by rw [evict_eq_drop]; exact (List.append_nil _).symm⟩

/-- C5: the draw only reads the buffer; from a stabilized state (window
within capacity), a tick with no new input redraws exactly the same window
content (only the elapsed-time header, which is not part of the logical
state, differs) and leaves the logical state untouched, for any number of
repetitions. -/
theorem claim_C5_draw_idempotent :
    ∀ (C : Nat) (b : List String) (e : Bool), b.length ≤ C →
      stateAfter C ⟨b, e⟩ idleTick = ⟨b, e⟩ ∧
      exitsAt C ⟨b, e⟩ idleTick = false ∧
      frameAt C ⟨b, e⟩ idleTick = b.take C ∧
      ∀ n, (fun st => stateAfter C st idleTick)^[n] ⟨b, e⟩ = ⟨b, e⟩ := by
  intro C b e hl
  have hstep : tickStep C ⟨b, e⟩ idleTick = (⟨b, e⟩, b.take C, false) := by
    have heq := tickStep_timeout_eq C b e []
    rw [List.append_nil] at heq
    rw [heq, if_neg (show ¬ C < b.length by omega), evict_of_le C b hl]
  refine ⟨?_, ?_, ?_, ?_⟩
  · unfold stateAfter
    rw [hstep]
  · unfold exitsAt
    rw [hstep]
  · unfold frameAt
    rw [hstep]
  · intro n
    induction n with
    | zero => rfl
    | succ k ihk =>
      rw [Function.iterate_succ_apply]
      show (fun st => stateAfter C st idleTick)^[k]
          (stateAfter C ⟨b, e⟩ idleTick) = ⟨b, e⟩
      unfold stateAfter
      rw [hstep]
      exact ihk

/-- Witness for C5 at a concrete stabilized state. -/
theorem claim_C5_witness :
    stateAfter 2 ⟨["a"], false⟩ idleTick = ⟨["a"], false⟩ :=
  (claim_C5_draw_idempotent 2 ["a"] false (by decide)).1

end Scrollrun
